import Mathlib

/-!
# The in-memory cache backend of `extensions/cachext/backend/memory`

A shallow embedding of `memory.go` and the properties of its data operations.

Modelling conventions.

* An instant (`time.Time`) is an integer number of nanoseconds on the axis
  of the clock and a `time.Duration` is an integer number of nanoseconds; `Add` is exact.
* Every call of a method receives the reading `now` that `time.Now()` yields
  during that call. Clock readings never decrease, and the only test made on a
  reading is `ExpiredAt.Before(now)`, so a later reading inside the same call
  can only keep an expired entry expired.
* A `[]byte` is `Option (List UInt8)`: `none` is the `nil` slice, `some []` is a
  zero-length slice that is not `nil`.
* The table `map[string]*memoryBackendNode` is a function from keys to optional
  nodes; `none` is "no entry". Every stored pointer comes from a fresh
  allocation in `Set`, so nodes are never shared between keys and the pointer
  indirection is dropped. The table is the one allocated by `Init`.
* `Get`, `Delete` and `Exists` call each other. They take a bound `fuel` on the
  depth of nested calls and answer `none` when the bound is exhausted: a call
  that answers `none` for every bound never returns in the program.
* The `context.Context` argument is unused by every method and is left out.
-/

namespace memory

/-- A byte slice `[]byte`: `none` is `nil`. -/
abbrev Bytes := Option (List UInt8)

/-- An instant `time.Time`, in nanoseconds. -/
abbrev Time := Int

/-- A `time.Duration`, in nanoseconds. -/
abbrev Duration := Int

/-- The `error` interface value of Go: `none` is `nil`. -/
abbrev error := Option String

/-- The largest `time.Duration`, `1<<63 - 1`. -/
def maxDuration : Duration := 9223372036854775807

/-- The smallest `time.Duration`, `-1 << 63`. -/
def minDuration : Duration := -9223372036854775808

/-- The call `t.Add(d)`. -/
def Time.Add (t : Time) (d : Duration) : Time := t + d

/-- The call `t.Before(u)`: `t` is strictly earlier than `u`. -/
def Time.Before (t u : Time) : Bool := decide (t < u)

/-- The call `t.Sub(u)`: the difference, saturated to the range of a duration. -/
def Time.Sub (t u : Time) : Duration :=
  if t - u < minDuration then minDuration
  else if maxDuration < t - u then maxDuration
  else t - u

/-- The call `time.Until(t)` made when the clock reads `now`. -/
def Until (t now : Time) : Duration := Time.Sub t now

/-- The struct `memoryBackendNode`. -/
structure memoryBackendNode where
  Value : Bytes
  ExpiredAt : Time
deriving DecidableEq

/-- The struct `memoryBackend`: the table `client`. -/
structure memoryBackend where
  client : String → Option memoryBackendNode

/-- The statement `m.client[key] = node`. -/
def memoryBackend.store (m : memoryBackend) (key : String) (node : memoryBackendNode) :
    memoryBackend :=
  ⟨fun k => if k = key then some node else m.client k⟩

/-- The statement `delete(m.client, key)`. -/
def memoryBackend.remove (m : memoryBackend) (key : String) : memoryBackend :=
  ⟨fun k => if k = key then none else m.client k⟩

/-- The method `Init`: allocates the empty table. -/
def memoryBackend.Init (_m : memoryBackend) : memoryBackend × error :=
  (⟨fun _ => none⟩, none)

mutual

/-- The method `Get`. -/
def memoryBackend.Get (m : memoryBackend) (fuel : Nat) (now : Time) (key : String) :
    Option (memoryBackend × Bytes × error) :=
  match fuel with
  | 0 => none
  | fuel + 1 =>
    match m.client key with
    | none => some (m, none, none)
    | some res =>
      if res.ExpiredAt.Before now then
        match memoryBackend.Delete m fuel now key with
        | none => none
        | some (m1, _) => some (m1, none, none)
      else
        some (m, res.Value, none)

/-- The method `Delete`. -/
def memoryBackend.Delete (m : memoryBackend) (fuel : Nat) (now : Time) (key : String) :
    Option (memoryBackend × Bool) :=
  match fuel with
  | 0 => none
  | fuel + 1 =>
    match memoryBackend.Exists m fuel now key with
    | none => none
    | some (m1, present) => some (m1.remove key, present)

/-- The method `Exists`. -/
def memoryBackend.Exists (m : memoryBackend) (fuel : Nat) (now : Time) (key : String) :
    Option (memoryBackend × Bool) :=
  match fuel with
  | 0 => none
  | fuel + 1 =>
    match memoryBackend.Get m fuel now key with
    | none => none
    | some (m1, val, _) => if val = none then some (m1, false) else some (m1, true)

end

/-- The method `Set`. -/
def memoryBackend.Set (m : memoryBackend) (now : Time) (key : String) (value : Bytes)
    (ttl : Duration) : memoryBackend × error :=
  let node : memoryBackendNode := { Value := value, ExpiredAt := Time.Add now ttl }
  (m.store key node, none)

/-- The method `SetMany`; `keyValues` lists the pairs of the map argument in the
order in which the `range` loop visits them. -/
def memoryBackend.SetMany (m : memoryBackend) (now : Time) (keyValues : List (String × Bytes))
    (ttl : Duration) : memoryBackend × error :=
  match keyValues with
  | [] => (m, none)
  | (key, value) :: rest =>
    match m.Set now key value ttl with
    | (m1, some err) => (m1, some err)
    | (m1, none) => memoryBackend.SetMany m1 now rest ttl

/-- The method `GetMany`: one result per key, in the order of `keys`. -/
def memoryBackend.GetMany (m : memoryBackend) (fuel : Nat) (now : Time) (keys : List String) :
    Option (memoryBackend × List Bytes) :=
  match keys with
  | [] => some (m, [])
  | key :: rest =>
    match m.Get fuel now key with
    | none => none
    | some (m1, val, _) =>
      match memoryBackend.GetMany m1 fuel now rest with
      | none => none
      | some (m2, resBytes) => some (m2, val :: resBytes)

/-- The loop of `DeleteMany`, entered with the current value of `res`. -/
def memoryBackend.DeleteManyLoop (m : memoryBackend) (fuel : Nat) (now : Time) (res : Bool)
    (keys : List String) : Option (memoryBackend × Bool) :=
  match keys with
  | [] => some (m, res)
  | key :: rest =>
    match m.Delete fuel now key with
    | none => none
    | some (m1, deleted) =>
      memoryBackend.DeleteManyLoop m1 fuel now (if deleted then true else res) rest

/-- The method `DeleteMany`. -/
def memoryBackend.DeleteMany (m : memoryBackend) (fuel : Nat) (now : Time) (keys : List String) :
    Option (memoryBackend × Bool) :=
  m.DeleteManyLoop fuel now false keys

/-- The method `Expire`. Indexing the table at a key without an entry yields a nil
pointer, whose dereference aborts the call (`none`). -/
def memoryBackend.Expire (m : memoryBackend) (fuel : Nat) (now : Time) (key : String)
    (ttl : Duration) : Option (memoryBackend × Bool) :=
  match m.Get fuel now key with
  | none => none
  | some (m1, val, _) =>
    if val = none then some (m1, false)
    else
      match m1.client key with
      | none => none
      | some node => some (m1.store key { node with ExpiredAt := Time.Add now ttl }, true)

/-- The method `TTL`. -/
def memoryBackend.TTL (m : memoryBackend) (fuel : Nat) (now : Time) (key : String) :
    Option (memoryBackend × Duration) :=
  match m.Get fuel now key with
  | none => none
  | some (m1, _, _) =>
    match m1.client key with
    | none => some (m1, 0)
    | some val => some (m1, Until val.ExpiredAt now)

/-- The table allocated by `Init`. -/
def emptyBackend : memoryBackend := (memoryBackend.Init ⟨fun _ => none⟩).1

/-- A data operation of the backend, with its arguments. -/
inductive Op where
  | Get (key : String)
  | Set (key : String) (value : Bytes) (ttl : Duration)
  | GetMany (keys : List String)
  | SetMany (keyValues : List (String × Bytes)) (ttl : Duration)
  | Delete (key : String)
  | DeleteMany (keys : List String)
  | Expire (key : String) (ttl : Duration)
  | TTL (key : String)
  | Exists (key : String)

/-- The table left by one data operation called at the reading `now`, when the
call returns. -/
def memoryBackend.apply (m : memoryBackend) (fuel : Nat) (now : Time) : Op → Option memoryBackend
  | Op.Get key => (m.Get fuel now key).map Prod.fst
  | Op.Set key value ttl => some (m.Set now key value ttl).1
  | Op.GetMany keys => (m.GetMany fuel now keys).map Prod.fst
  | Op.SetMany keyValues ttl => some (m.SetMany now keyValues ttl).1
  | Op.Delete key => (m.Delete fuel now key).map Prod.fst
  | Op.DeleteMany keys => (m.DeleteMany fuel now keys).map Prod.fst
  | Op.Expire key ttl => (m.Expire fuel now key ttl).map Prod.fst
  | Op.TTL key => (m.TTL fuel now key).map Prod.fst
  | Op.Exists key => (m.Exists fuel now key).map Prod.fst

/-- The table left by a sequence of data operations, each with the clock reading
of its call, when every call returns. -/
def memoryBackend.run (m : memoryBackend) (fuel : Nat) : List (Time × Op) → Option memoryBackend
  | [] => some m
  | (now, op) :: rest =>
    match m.apply fuel now op with
    | none => none
    | some m1 => memoryBackend.run m1 fuel rest

/-! ## Specification vocabulary -/

/-- The operation is a `Set` or a `SetMany` that names the key `k`. -/
def Op.sets (k : String) : Op → Bool
  | Op.Set key _ _ => decide (key = k)
  | Op.SetMany keyValues _ => decide (k ∈ keyValues.map Prod.fst)
  | _ => false

/-- The entry of `key` has not passed its deadline at the reading `now`: there is
an entry and `ExpiredAt.Before(now)` is false. -/
def memoryBackend.live (m : memoryBackend) (now : Time) (key : String) : Prop :=
  ∃ node, m.client key = some node ∧ now ≤ node.ExpiredAt

/-- The entry of `key` has passed its deadline at the reading `now`. -/
def memoryBackend.expired (m : memoryBackend) (now : Time) (key : String) : Prop :=
  ∃ node, m.client key = some node ∧ node.ExpiredAt < now

/-- The entry of `key` is live at `now` and stores a slice that is not `nil`. -/
def memoryBackend.visible (m : memoryBackend) (now : Time) (key : String) : Prop :=
  ∃ node, m.client key = some node ∧ now ≤ node.ExpiredAt ∧ node.Value ≠ none

/-- The slice stored for `key`, `nil` when there is no entry. -/
def memoryBackend.stored (m : memoryBackend) (key : String) : Bytes :=
  match m.client key with
  | some node => node.Value
  | none => none

/-- The Go expression `keyValues[key]` on a map given by its list of pairs: the
value paired with `key`, and the zero value `nil` when `key` is not in the map. -/
def index (keyValues : List (String × Bytes)) (key : String) : Bytes :=
  match keyValues.lookup key with
  | some value => value
  | none => none

/-! ## Tables -/

theorem memoryBackend.eq_of_client (m m' : memoryBackend) (h : ∀ k, m'.client k = m.client k) :
    m' = m := by
  cases m with
  | mk c =>
    cases m' with
    | mk c' =>
      have hc : c' = c := funext h
      rw [hc]

theorem store_same (m : memoryBackend) (key : String) (node : memoryBackendNode) :
    (m.store key node).client key = some node := by
  simp [memoryBackend.store]

theorem store_other (m : memoryBackend) (key k : String) (node : memoryBackendNode)
    (h : k ≠ key) : (m.store key node).client k = m.client k := by
  simp [memoryBackend.store, h]

theorem remove_same (m : memoryBackend) (key : String) : (m.remove key).client key = none := by
  simp [memoryBackend.remove]

theorem remove_other (m : memoryBackend) (key k : String) (h : k ≠ key) :
    (m.remove key).client k = m.client k := by
  simp [memoryBackend.remove, h]

theorem remove_absent (m : memoryBackend) (key : String) (h : m.client key = none) :
    m.remove key = m := by
  apply memoryBackend.eq_of_client
  intro k
  by_cases hk : k = key
  · subst hk
    rw [remove_same, h]
  · exact remove_other m key k hk

/-! ## The reads `Get` and `Exists`, and `Delete` -/

theorem Get_absent (m : memoryBackend) (fuel : Nat) (now : Time) (key : String)
    (h : m.client key = none) : m.Get (fuel + 1) now key = some (m, none, none) := by
  simp [memoryBackend.Get, h]

theorem Get_live (m : memoryBackend) (fuel : Nat) (now : Time) (key : String)
    (node : memoryBackendNode) (h : m.client key = some node) (hl : now ≤ node.ExpiredAt) :
    m.Get (fuel + 1) now key = some (m, node.Value, none) := by
  have hnot : ¬ node.ExpiredAt < now := not_lt.mpr hl
  simp [memoryBackend.Get, h, Time.Before, hnot]

/-- On an entry whose deadline has passed, `Get` calls `Delete`, which calls `Exists`,
which calls `Get` on the same entry again: no bound on the depth lets any of the
three return. -/
theorem no_return_of_expired (m : memoryBackend) (now : Time) (key : String)
    (node : memoryBackendNode) (h : m.client key = some node) (hx : node.ExpiredAt < now)
    (fuel : Nat) :
    m.Get fuel now key = none ∧ m.Delete fuel now key = none ∧ m.Exists fuel now key = none := by
  induction fuel with
  | zero => simp [memoryBackend.Get, memoryBackend.Delete, memoryBackend.Exists]
  | succ n ih =>
    obtain ⟨hg, hd, he⟩ := ih
    refine ⟨?_, ?_, ?_⟩
    · simp [memoryBackend.Get, h, Time.Before, hx, hd]
    · simp [memoryBackend.Delete, he]
    · simp [memoryBackend.Exists, hg]

/-- What a returning `Get` has done: the table is the one it was given, the error
is `nil`, and the value is `nil` for a key without entry and the stored slice
for a key whose deadline has not passed. -/
theorem Get_returns (m m' : memoryBackend) (fuel : Nat) (now : Time) (key : String)
    (val : Bytes) (err : error) (h : m.Get fuel now key = some (m', val, err)) :
    m' = m ∧ err = none ∧
      ((m.client key = none ∧ val = none) ∨
        ∃ node, m.client key = some node ∧ now ≤ node.ExpiredAt ∧ val = node.Value) := by
  cases fuel with
  | zero => simp [memoryBackend.Get] at h
  | succ n =>
    cases hc : m.client key with
    | none =>
      rw [Get_absent m n now key hc] at h
      simp only [Option.some.injEq, Prod.mk.injEq] at h
      obtain ⟨h1, h2, h3⟩ := h
      exact ⟨h1.symm, h3.symm, Or.inl ⟨rfl, h2.symm⟩⟩
    | some node =>
      by_cases hx : node.ExpiredAt < now
      · rw [(no_return_of_expired m now key node hc hx (n + 1)).1] at h
        exact absurd h (by simp)
      · rw [Get_live m n now key node hc (not_lt.mp hx)] at h
        simp only [Option.some.injEq, Prod.mk.injEq] at h
        obtain ⟨h1, h2, h3⟩ := h
        exact ⟨h1.symm, h3.symm, Or.inr ⟨node, rfl, not_lt.mp hx, h2.symm⟩⟩

theorem Exists_absent (m : memoryBackend) (fuel : Nat) (now : Time) (key : String)
    (h : m.client key = none) : m.Exists (fuel + 2) now key = some (m, false) := by
  simp [memoryBackend.Exists, Get_absent m fuel now key h]

theorem Exists_live (m : memoryBackend) (fuel : Nat) (now : Time) (key : String)
    (node : memoryBackendNode) (h : m.client key = some node) (hl : now ≤ node.ExpiredAt) :
    m.Exists (fuel + 2) now key = some (m, if node.Value = none then false else true) := by
  simp only [memoryBackend.Exists, Get_live m fuel now key node h hl]
  split <;> rfl

/-- What a returning `Exists` has done. -/
theorem Exists_returns (m m' : memoryBackend) (fuel : Nat) (now : Time) (key : String)
    (b : Bool) (h : m.Exists fuel now key = some (m', b)) :
    m' = m ∧ (b = true ↔ m.visible now key) := by
  cases fuel with
  | zero => simp [memoryBackend.Exists] at h
  | succ n =>
    simp only [memoryBackend.Exists] at h
    cases hg : m.Get n now key with
    | none => simp [hg] at h
    | some r =>
      obtain ⟨m1, val, err⟩ := r
      obtain ⟨hm, _, hv⟩ := Get_returns m m1 n now key val err hg
      rw [hg] at h
      simp only at h
      rcases hv with ⟨hc, hval⟩ | ⟨node, hc, hl, hval⟩
      · subst hval
        simp only [if_true, Option.some.injEq, Prod.mk.injEq] at h
        refine ⟨by rw [← h.1, hm], ?_⟩
        rw [← h.2]
        constructor
        · intro hf
          exact absurd hf (by simp)
        · rintro ⟨node, hn, _⟩
          rw [hc] at hn
          exact absurd hn (by simp)
      · by_cases hnil : node.Value = none
        · rw [hval, if_pos hnil] at h
          simp only [Option.some.injEq, Prod.mk.injEq] at h
          refine ⟨by rw [← h.1, hm], ?_⟩
          rw [← h.2]
          constructor
          · intro hf
            exact absurd hf (by simp)
          · rintro ⟨node2, hn, _, hv2⟩
            rw [hc] at hn
            simp only [Option.some.injEq] at hn
            subst hn
            exact absurd hnil hv2
        · rw [hval, if_neg hnil] at h
          simp only [Option.some.injEq, Prod.mk.injEq] at h
          refine ⟨by rw [← h.1, hm], ?_⟩
          rw [← h.2]
          exact ⟨fun _ => ⟨node, hc, hl, hnil⟩, fun _ => rfl⟩

theorem Delete_absent (m : memoryBackend) (fuel : Nat) (now : Time) (key : String)
    (h : m.client key = none) : m.Delete (fuel + 3) now key = some (m, false) := by
  simp [memoryBackend.Delete, Exists_absent m fuel now key h, remove_absent m key h]

theorem Delete_live (m : memoryBackend) (fuel : Nat) (now : Time) (key : String)
    (node : memoryBackendNode) (h : m.client key = some node) (hl : now ≤ node.ExpiredAt) :
    m.Delete (fuel + 3) now key =
      some (m.remove key, if node.Value = none then false else true) := by
  simp [memoryBackend.Delete, Exists_live m fuel now key node h hl]

/-- What a returning `Delete` has done. -/
theorem Delete_returns (m m' : memoryBackend) (fuel : Nat) (now : Time) (key : String)
    (b : Bool) (h : m.Delete fuel now key = some (m', b)) :
    m' = m.remove key ∧ (b = true ↔ m.visible now key) := by
  cases fuel with
  | zero => simp [memoryBackend.Delete] at h
  | succ n =>
    simp only [memoryBackend.Delete] at h
    cases he : m.Exists n now key with
    | none => simp [he] at h
    | some r =>
      obtain ⟨m1, present⟩ := r
      obtain ⟨hm, hb⟩ := Exists_returns m m1 n now key present he
      rw [he] at h
      simp only [Option.some.injEq, Prod.mk.injEq] at h
      refine ⟨by rw [← h.1, hm], ?_⟩
      rw [← h.2]
      exact hb

/-! ## `TTL` and `Expire` -/

theorem Sub_exact (t u : Time) (h1 : minDuration ≤ t - u) (h2 : t - u ≤ maxDuration) :
    Time.Sub t u = t - u := by
  unfold Time.Sub
  rw [if_neg (not_lt.mpr h1), if_neg (not_lt.mpr h2)]

theorem TTL_absent (m : memoryBackend) (fuel : Nat) (now : Time) (key : String)
    (h : m.client key = none) : m.TTL (fuel + 1) now key = some (m, 0) := by
  simp [memoryBackend.TTL, Get_absent m fuel now key h, h]

theorem TTL_live (m : memoryBackend) (fuel : Nat) (now : Time) (key : String)
    (node : memoryBackendNode) (h : m.client key = some node) (hl : now ≤ node.ExpiredAt) :
    m.TTL (fuel + 1) now key = some (m, Until node.ExpiredAt now) := by
  simp [memoryBackend.TTL, Get_live m fuel now key node h hl, h]

/-- A returning `TTL` leaves the table as it was. -/
theorem TTL_returns (m m' : memoryBackend) (fuel : Nat) (now : Time) (key : String)
    (d : Duration) (h : m.TTL fuel now key = some (m', d)) : m' = m := by
  simp only [memoryBackend.TTL] at h
  cases hg : m.Get fuel now key with
  | none => simp [hg] at h
  | some r =>
    obtain ⟨m1, val, err⟩ := r
    obtain ⟨hm, _, _⟩ := Get_returns m m1 fuel now key val err hg
    rw [hg] at h
    simp only at h
    cases hc : m1.client key with
    | none =>
      rw [hc] at h
      simp only [Option.some.injEq, Prod.mk.injEq] at h
      rw [← h.1, hm]
    | some node =>
      rw [hc] at h
      simp only [Option.some.injEq, Prod.mk.injEq] at h
      rw [← h.1, hm]

theorem Expire_absent (m : memoryBackend) (fuel : Nat) (now : Time) (key : String)
    (ttl : Duration) (h : m.client key = none) :
    m.Expire (fuel + 1) now key ttl = some (m, false) := by
  simp [memoryBackend.Expire, Get_absent m fuel now key h]

theorem Expire_live_nil (m : memoryBackend) (fuel : Nat) (now : Time) (key : String)
    (ttl : Duration) (node : memoryBackendNode) (h : m.client key = some node)
    (hl : now ≤ node.ExpiredAt) (hv : node.Value = none) :
    m.Expire (fuel + 1) now key ttl = some (m, false) := by
  simp [memoryBackend.Expire, Get_live m fuel now key node h hl, hv]

theorem Expire_visible (m : memoryBackend) (fuel : Nat) (now : Time) (key : String)
    (ttl : Duration) (node : memoryBackendNode) (h : m.client key = some node)
    (hl : now ≤ node.ExpiredAt) (hv : node.Value ≠ none) :
    m.Expire (fuel + 1) now key ttl =
      some (m.store key { node with ExpiredAt := Time.Add now ttl }, true) := by
  simp [memoryBackend.Expire, Get_live m fuel now key node h hl, hv, h]

/-- A returning `Expire` has written at most the entry of its own key. -/
theorem Expire_returns (m m' : memoryBackend) (fuel : Nat) (now : Time) (key : String)
    (ttl : Duration) (b : Bool) (h : m.Expire fuel now key ttl = some (m', b)) :
    ∀ k, k ≠ key → m'.client k = m.client k := by
  intro k hk
  simp only [memoryBackend.Expire] at h
  cases hg : m.Get fuel now key with
  | none => simp [hg] at h
  | some r =>
    obtain ⟨m1, val, err⟩ := r
    obtain ⟨hm, _, _⟩ := Get_returns m m1 fuel now key val err hg
    rw [hg] at h
    simp only at h
    by_cases hnil : val = none
    · rw [if_pos hnil] at h
      simp only [Option.some.injEq, Prod.mk.injEq] at h
      rw [← h.1, hm]
    · rw [if_neg hnil] at h
      cases hc : m1.client key with
      | none => simp [hc] at h
      | some node =>
        rw [hc] at h
        simp only [Option.some.injEq, Prod.mk.injEq] at h
        rw [← h.1, store_other _ _ _ _ hk, hm]

/-! ## The batch operations -/

theorem absent_or_live (m : memoryBackend) (now : Time) (key : String)
    (h : ¬ m.expired now key) : m.client key = none ∨ m.live now key := by
  cases hc : m.client key with
  | none => exact Or.inl rfl
  | some node =>
    right
    refine ⟨node, hc, ?_⟩
    by_contra hlt
    exact h ⟨node, hc, not_le.mp hlt⟩

theorem Get_of_not_expired (m : memoryBackend) (fuel : Nat) (now : Time) (key : String)
    (h : ¬ m.expired now key) : m.Get (fuel + 1) now key = some (m, m.stored key, none) := by
  rcases absent_or_live m now key h with hc | ⟨node, hc, hl⟩
  · rw [Get_absent m fuel now key hc]
    simp [memoryBackend.stored, hc]
  · rw [Get_live m fuel now key node hc hl]
    simp [memoryBackend.stored, hc]

theorem GetMany_of_not_expired (m : memoryBackend) (fuel : Nat) (now : Time)
    (keys : List String) (h : ∀ k ∈ keys, ¬ m.expired now k) :
    m.GetMany (fuel + 1) now keys = some (m, keys.map m.stored) := by
  induction keys with
  | nil => simp [memoryBackend.GetMany]
  | cons key rest ih =>
    have hk := Get_of_not_expired m fuel now key (h key (List.mem_cons_self key rest))
    have hr := ih (fun k hkm => h k (List.mem_cons_of_mem key hkm))
    simp [memoryBackend.GetMany, hk, hr]

/-- A returning `GetMany` leaves the table as it was. -/
theorem GetMany_returns (fuel : Nat) (now : Time) (keys : List String) :
    ∀ (m m' : memoryBackend) (res : List Bytes),
      m.GetMany fuel now keys = some (m', res) → m' = m := by
  induction keys with
  | nil =>
    intro m m' res h
    simp only [memoryBackend.GetMany, Option.some.injEq, Prod.mk.injEq] at h
    exact h.1.symm
  | cons key rest ih =>
    intro m m' res h
    simp only [memoryBackend.GetMany] at h
    cases hg : m.Get fuel now key with
    | none => simp [hg] at h
    | some r =>
      obtain ⟨m1, val, err⟩ := r
      obtain ⟨hm, _, _⟩ := Get_returns m m1 fuel now key val err hg
      rw [hg] at h
      simp only at h
      cases hrest : m1.GetMany fuel now rest with
      | none => simp [hrest] at h
      | some r2 =>
        obtain ⟨m2, res2⟩ := r2
        have h2 := ih m1 m2 res2 hrest
        rw [hrest] at h
        simp only [Option.some.injEq, Prod.mk.injEq] at h
        rw [← h.1, h2, hm]

theorem SetMany_cons (m : memoryBackend) (now : Time) (key : String) (value : Bytes)
    (rest : List (String × Bytes)) (ttl : Duration) :
    m.SetMany now ((key, value) :: rest) ttl = (m.Set now key value ttl).1.SetMany now rest ttl := by
  simp [memoryBackend.SetMany, memoryBackend.Set]

theorem SetMany_error (now : Time) (ttl : Duration) (keyValues : List (String × Bytes)) :
    ∀ m : memoryBackend, (m.SetMany now keyValues ttl).2 = none := by
  induction keyValues with
  | nil => intro m; simp [memoryBackend.SetMany]
  | cons p rest ih =>
    intro m
    obtain ⟨key, value⟩ := p
    rw [SetMany_cons]
    exact ih _

theorem SetMany_other (now : Time) (ttl : Duration) (k : String)
    (keyValues : List (String × Bytes)) :
    ∀ m : memoryBackend, k ∉ keyValues.map Prod.fst →
      (m.SetMany now keyValues ttl).1.client k = m.client k := by
  induction keyValues with
  | nil => intro m _; simp [memoryBackend.SetMany]
  | cons p rest ih =>
    intro m hk
    obtain ⟨key, value⟩ := p
    simp only [List.map_cons, List.mem_cons, not_or] at hk
    rw [SetMany_cons, ih _ hk.2]
    simp only [memoryBackend.Set]
    exact store_other m key k _ hk.1

theorem SetMany_mem (now : Time) (ttl : Duration) (k : String) (v : Bytes)
    (keyValues : List (String × Bytes)) :
    ∀ m : memoryBackend, (keyValues.map Prod.fst).Nodup → (k, v) ∈ keyValues →
      (m.SetMany now keyValues ttl).1.client k =
        some { Value := v, ExpiredAt := Time.Add now ttl } := by
  induction keyValues with
  | nil => intro m _ hmem; simp at hmem
  | cons p rest ih =>
    intro m hnd hmem
    obtain ⟨key, value⟩ := p
    simp only [List.map_cons, List.nodup_cons] at hnd
    rw [SetMany_cons]
    rcases List.mem_cons.mp hmem with heq | hin
    · simp only [Prod.mk.injEq] at heq
      obtain ⟨hk, hv⟩ := heq
      subst hk
      subst hv
      rw [SetMany_other now ttl k rest _ hnd.1]
      simp only [memoryBackend.Set]
      exact store_same m k _
    · exact ih _ hnd.2 hin

theorem Delete_of_not_expired (m : memoryBackend) (fuel : Nat) (now : Time) (key : String)
    (h : ¬ m.expired now key) :
    ∃ b, m.Delete (fuel + 3) now key = some (m.remove key, b) ∧
      (b = true ↔ m.visible now key) := by
  rcases absent_or_live m now key h with hc | ⟨node, hc, hl⟩
  · have hd : m.Delete (fuel + 3) now key = some (m.remove key, false) := by
      rw [Delete_absent m fuel now key hc, remove_absent m key hc]
    exact ⟨false, hd, (Delete_returns m _ _ now key false hd).2⟩
  · have hd := Delete_live m fuel now key node hc hl
    exact ⟨_, hd, (Delete_returns m _ _ now key _ hd).2⟩

theorem visible_remove (m : memoryBackend) (now : Time) (key k : String) :
    (m.remove key).visible now k ↔ k ≠ key ∧ m.visible now k := by
  by_cases hk : k = key
  · subst hk
    constructor
    · rintro ⟨node, hn, _⟩
      rw [remove_same] at hn
      exact absurd hn (by simp)
    · rintro ⟨hne, _⟩
      exact absurd rfl hne
  · unfold memoryBackend.visible
    rw [remove_other m key k hk]
    exact ⟨fun h => ⟨hk, h⟩, fun h => h.2⟩

theorem not_expired_remove (m : memoryBackend) (now : Time) (key k : String)
    (h : ¬ m.expired now k) : ¬ (m.remove key).expired now k := by
  rintro ⟨node, hn, hx⟩
  by_cases hk : k = key
  · subst hk
    rw [remove_same] at hn
    exact absurd hn (by simp)
  · rw [remove_other m key k hk] at hn
    exact h ⟨node, hn, hx⟩

/-- The loop of `DeleteMany` on keys none of which holds an entry past its
deadline: it returns, the flag is raised exactly when it was raised before or a
listed key was visible, and exactly the listed keys lose their entries. -/
theorem DeleteManyLoop_of_not_expired (fuel : Nat) (now : Time) (keys : List String) :
    ∀ (m : memoryBackend) (res : Bool), (∀ k ∈ keys, ¬ m.expired now k) →
      ∃ m' b, m.DeleteManyLoop (fuel + 3) now res keys = some (m', b) ∧
        (b = true ↔ (res = true ∨ ∃ k ∈ keys, m.visible now k)) ∧
        (∀ k ∈ keys, m'.client k = none) ∧
        (∀ k, k ∉ keys → m'.client k = m.client k) := by
  induction keys with
  | nil =>
    intro m res _
    exact ⟨m, res, by simp [memoryBackend.DeleteManyLoop], by simp, by simp, fun _ _ => rfl⟩
  | cons key rest ih =>
    intro m res h
    obtain ⟨d, hd, hdv⟩ :=
      Delete_of_not_expired m fuel now key (h key (List.mem_cons_self key rest))
    obtain ⟨m', b, hloop, hb, hgone, hkeep⟩ :=
      ih (m.remove key) (if d then true else res)
        (fun k hk => not_expired_remove m now key k (h k (List.mem_cons_of_mem key hk)))
    refine ⟨m', b, ?_, ?_, ?_, ?_⟩
    · simp only [memoryBackend.DeleteManyLoop, hd]
      exact hloop
    · rw [hb]
      constructor
      · rintro (hres | ⟨k, hk, hvis⟩)
        · by_cases hdt : d = true
          · exact Or.inr ⟨key, List.mem_cons_self key rest, hdv.mp hdt⟩
          · rw [if_neg hdt] at hres
            exact Or.inl hres
        · exact Or.inr ⟨k, List.mem_cons_of_mem key hk,
            ((visible_remove m now key k).mp hvis).2⟩
      · rintro (hres | ⟨k, hk, hvis⟩)
        · left
          by_cases hdt : d = true
          · rw [if_pos hdt]
          · rw [if_neg hdt]
            exact hres
        · by_cases hkk : k = key
          · subst hkk
            left
            rw [if_pos (hdv.mpr hvis)]
          · right
            rcases List.mem_cons.mp hk with heq | hin
            · exact absurd heq hkk
            · exact ⟨k, hin, (visible_remove m now key k).mpr ⟨hkk, hvis⟩⟩
    · intro k hk
      by_cases hin : k ∈ rest
      · exact hgone k hin
      · rcases List.mem_cons.mp hk with heq | hin2
        · rw [hkeep k hin, heq]
          exact remove_same m key
        · exact absurd hin2 hin
    · intro k hk
      simp only [List.mem_cons, not_or] at hk
      rw [hkeep k hk.2]
      exact remove_other m key k hk.1

/-- A returning loop of `DeleteMany` creates no entry. -/
theorem DeleteManyLoop_returns (fuel : Nat) (now : Time) (keys : List String) :
    ∀ (m m' : memoryBackend) (res b : Bool),
      m.DeleteManyLoop fuel now res keys = some (m', b) →
        ∀ k, m.client k = none → m'.client k = none := by
  induction keys with
  | nil =>
    intro m m' res b h k hk
    simp only [memoryBackend.DeleteManyLoop, Option.some.injEq, Prod.mk.injEq] at h
    rw [← h.1]
    exact hk
  | cons key rest ih =>
    intro m m' res b h k hk
    simp only [memoryBackend.DeleteManyLoop] at h
    cases hd : m.Delete fuel now key with
    | none => simp [hd] at h
    | some r =>
      obtain ⟨m1, deleted⟩ := r
      obtain ⟨hm, _⟩ := Delete_returns m m1 fuel now key deleted hd
      rw [hd] at h
      simp only at h
      apply ih m1 m' _ b h k
      rw [hm]
      by_cases hkk : k = key
      · rw [hkk]
        exact remove_same m key
      · rw [remove_other m key k hkk]
        exact hk

/-! ## Maps given by their list of pairs -/

theorem lookup_of_mem (k : String) (v : Bytes) (keyValues : List (String × Bytes)) :
    (keyValues.map Prod.fst).Nodup → (k, v) ∈ keyValues → keyValues.lookup k = some v := by
  induction keyValues with
  | nil => intro _ hmem; simp at hmem
  | cons p rest ih =>
    intro hnd hmem
    obtain ⟨key, value⟩ := p
    simp only [List.map_cons, List.nodup_cons] at hnd
    rcases List.mem_cons.mp hmem with heq | hin
    · simp only [Prod.mk.injEq] at heq
      rw [heq.1, heq.2]
      simp [List.lookup]
    · have hne : k ≠ key := by
        intro hk
        apply hnd.1
        rw [← hk]
        exact List.mem_map_of_mem Prod.fst hin
      have hbeq : (k == key) = false := by simpa using hne
      simp only [List.lookup, hbeq]
      exact ih hnd.2 hin

theorem mem_of_lookup (k : String) (v : Bytes) (keyValues : List (String × Bytes)) :
    keyValues.lookup k = some v → (k, v) ∈ keyValues := by
  induction keyValues with
  | nil => intro h; simp [List.lookup] at h
  | cons p rest ih =>
    intro h
    obtain ⟨key, value⟩ := p
    by_cases hk : k = key
    · subst hk
      simp [List.lookup] at h
      rw [h]
      exact List.mem_cons_self _ _
    · have hbeq : (k == key) = false := by simpa using hk
      simp only [List.lookup, hbeq] at h
      exact List.mem_cons_of_mem _ (ih h)

theorem lookup_none_of_not_mem (k : String) (keyValues : List (String × Bytes)) :
    k ∉ keyValues.map Prod.fst → keyValues.lookup k = none := by
  intro hk
  cases hl : keyValues.lookup k with
  | none => rfl
  | some v =>
    exact absurd (List.mem_map_of_mem Prod.fst (mem_of_lookup k v keyValues hl)) hk

/-! ## Sequences of operations -/

theorem Expire_keeps_absent (m m' : memoryBackend) (fuel : Nat) (now : Time) (key : String)
    (ttl : Duration) (b : Bool) (h : m.Expire fuel now key ttl = some (m', b)) (k : String)
    (hk : m.client k = none) : m'.client k = none := by
  by_cases hkk : k = key
  · subst hkk
    cases fuel with
    | zero => simp [memoryBackend.Expire, memoryBackend.Get] at h
    | succ n =>
      rw [Expire_absent m n now k ttl hk] at h
      simp only [Option.some.injEq, Prod.mk.injEq] at h
      rw [← h.1]
      exact hk
  · rw [Expire_returns m m' fuel now key ttl b h k hkk]
    exact hk

theorem fst_of_map_eq_some {α β : Type} (o : Option (α × β)) (a : α)
    (h : o.map Prod.fst = some a) : ∃ b, o = some (a, b) := by
  cases o with
  | none => simp at h
  | some r =>
    obtain ⟨x, y⟩ := r
    simp only [Option.map_some', Option.some.injEq] at h
    exact ⟨y, by rw [h]⟩

/-- An operation that returns and is not a `Set` or `SetMany` naming `k` creates no
entry for `k`. -/
theorem apply_keeps_absent (m m' : memoryBackend) (fuel : Nat) (now : Time) (op : Op)
    (k : String) (hop : op.sets k = false) (h : m.apply fuel now op = some m')
    (hk : m.client k = none) : m'.client k = none := by
  cases op with
  | Get key =>
    obtain ⟨r, hr⟩ := fst_of_map_eq_some _ _ h
    rw [(Get_returns m m' fuel now key r.1 r.2 hr).1]
    exact hk
  | Set key value ttl =>
    simp only [Op.sets, decide_eq_false_iff_not] at hop
    simp only [memoryBackend.apply, Option.some.injEq] at h
    rw [← h]
    simp only [memoryBackend.Set]
    rw [store_other m key k _ (fun hkk => hop hkk.symm)]
    exact hk
  | GetMany keys =>
    obtain ⟨r, hr⟩ := fst_of_map_eq_some _ _ h
    rw [GetMany_returns fuel now keys m m' r hr]
    exact hk
  | SetMany keyValues ttl =>
    simp only [Op.sets, decide_eq_false_iff_not] at hop
    simp only [memoryBackend.apply, Option.some.injEq] at h
    rw [← h, SetMany_other now ttl k keyValues m hop]
    exact hk
  | Delete key =>
    obtain ⟨r, hr⟩ := fst_of_map_eq_some _ _ h
    rw [(Delete_returns m m' fuel now key r hr).1]
    by_cases hkk : k = key
    · rw [hkk]
      exact remove_same m key
    · rw [remove_other m key k hkk]
      exact hk
  | DeleteMany keys =>
    obtain ⟨r, hr⟩ := fst_of_map_eq_some _ _ h
    exact DeleteManyLoop_returns fuel now keys m m' false r hr k hk
  | Expire key ttl =>
    obtain ⟨r, hr⟩ := fst_of_map_eq_some _ _ h
    exact Expire_keeps_absent m m' fuel now key ttl r hr k hk
  | TTL key =>
    obtain ⟨r, hr⟩ := fst_of_map_eq_some _ _ h
    rw [TTL_returns m m' fuel now key r hr]
    exact hk
  | Exists key =>
    obtain ⟨r, hr⟩ := fst_of_map_eq_some _ _ h
    rw [(Exists_returns m m' fuel now key r hr).1]
    exact hk

theorem run_keeps_absent (fuel : Nat) (k : String) (ops : List (Time × Op)) :
    ∀ (m m' : memoryBackend), (∀ p ∈ ops, p.2.sets k = false) → m.run fuel ops = some m' →
      m.client k = none → m'.client k = none := by
  induction ops with
  | nil =>
    intro m m' _ h hk
    simp only [memoryBackend.run, Option.some.injEq] at h
    rw [← h]
    exact hk
  | cons p rest ih =>
    intro m m' hops h hk
    obtain ⟨now, op⟩ := p
    simp only [memoryBackend.run] at h
    cases ha : m.apply fuel now op with
    | none => simp [ha] at h
    | some m1 =>
      rw [ha] at h
      simp only at h
      have hop : op.sets k = false := hops (now, op) (List.mem_cons_self _ _)
      exact ih m1 m' (fun q hq => hops q (List.mem_cons_of_mem _ hq)) h
        (apply_keeps_absent m m1 fuel now op k hop ha hk)

/-! ## The claims -/

/-- Claim C1: after `Set(k, v, ttl)` with `ttl > 0` at the reading `t`, on any table,
`Set` returns a nil error, the entry of `k` holds `v` with deadline `t + ttl`, and
a `Get(k)` at any reading `t'` with `t ≤ t' < t + ttl` returns `v` with a nil
error. -/
theorem C1_set_then_get (m : memoryBackend) (k : String) (v : Bytes) (ttl : Duration)
    (t t' : Time) (fuel : Nat) (httl : 0 < ttl) (h1 : t ≤ t') (h2 : t' < t + ttl) :
    (m.Set t k v ttl).2 = none ∧
      (m.Set t k v ttl).1.client k = some { Value := v, ExpiredAt := t + ttl } ∧
      (m.Set t k v ttl).1.Get (fuel + 1) t' k = some ((m.Set t k v ttl).1, v, none) := by
  have hc : (m.Set t k v ttl).1.client k = some { Value := v, ExpiredAt := t + ttl } := by
    simp only [memoryBackend.Set, Time.Add]
    exact store_same m k _
  exact ⟨rfl, hc, Get_live _ fuel t' k _ hc (le_of_lt h2)⟩

theorem C1_set_then_get_witness :
    ((emptyBackend.Set 0 "a" (some [7]) 40).1.Set 10 "a" (some [49]) 100).2 = none ∧
      ((emptyBackend.Set 0 "a" (some [7]) 40).1.Set 10 "a" (some [49]) 100).1.client "a" =
        some { Value := some [49], ExpiredAt := 10 + 100 } ∧
      ((emptyBackend.Set 0 "a" (some [7]) 40).1.Set 10 "a" (some [49]) 100).1.Get (0 + 1) 60 "a" =
        some (((emptyBackend.Set 0 "a" (some [7]) 40).1.Set 10 "a" (some [49]) 100).1,
          some [49], none) :=
  C1_set_then_get (emptyBackend.Set 0 "a" (some [7]) 40).1 "a" (some [49]) 100 10 60 0
    (by decide) (by decide) (by decide)

/-- Claim C2, evaluated at `Set("a", "1", 100ms)` at reading 0 followed by reads at
reading 150ms: under no bound on the call depth does `Get("a")`, `Exists("a")` or
`TTL("a")` return, because `Get` calls `Delete`, `Delete` calls `Exists` and
`Exists` calls `Get` on the entry that is still stored. -/
theorem C2_read_of_expired_never_returns (fuel : Nat) :
    (emptyBackend.Set 0 "a" (some [49]) 100000000).1.Get fuel 150000000 "a" = none ∧
      (emptyBackend.Set 0 "a" (some [49]) 100000000).1.Exists fuel 150000000 "a" = none ∧
      (emptyBackend.Set 0 "a" (some [49]) 100000000).1.TTL fuel 150000000 "a" = none := by
  have hc : (emptyBackend.Set 0 "a" (some [49]) 100000000).1.client "a" =
      some { Value := some [49], ExpiredAt := 100000000 } := by
    simp only [memoryBackend.Set, Time.Add]
    exact store_same _ "a" _
  have h := no_return_of_expired _ 150000000 "a" _ hc (by decide) fuel
  refine ⟨h.1, h.2.2, ?_⟩
  simp [memoryBackend.TTL, h.1]

/-- Claim C3 fails as stated: after `Set("a", nil, 100)` at reading 0 the entry of
`"a"` is in the table with deadline 100, and at reading 50 `Exists("a")` returns
false. -/
theorem C3_counterexample :
    (emptyBackend.Set 0 "a" none 100).1.client "a" = some { Value := none, ExpiredAt := 100 } ∧
      (50 : Time) ≤ 100 ∧
      ((emptyBackend.Set 0 "a" none 100).1.Exists 2 50 "a").map Prod.snd = some false := by
  decide

/-- Claim C3, amended: `Exists(k)` returns true exactly when the table holds an
entry for `k` whose deadline has not passed and whose stored slice is not nil; a
zero-length slice that is not nil counts. For a key without entry, and for a live
entry that stores nil, it returns false. In all three cases the table is left as
it was. -/
theorem C3_exists_iff_visible (m : memoryBackend) (now : Time) (k : String) (fuel : Nat) :
    (m.Exists (fuel + 2) now k = some (m, true) ↔
        ∃ node, m.client k = some node ∧ now ≤ node.ExpiredAt ∧ node.Value ≠ none) ∧
      (m.client k = none → m.Exists (fuel + 2) now k = some (m, false)) ∧
      (∀ node, m.client k = some node → now ≤ node.ExpiredAt → node.Value = none →
        m.Exists (fuel + 2) now k = some (m, false)) ∧
      (∀ node, m.client k = some node → now ≤ node.ExpiredAt → node.Value = some [] →
        m.Exists (fuel + 2) now k = some (m, true)) := by
  refine ⟨⟨?_, ?_⟩, ?_, ?_, ?_⟩
  · intro h
    exact (Exists_returns m m (fuel + 2) now k true h).2.mp rfl
  · rintro ⟨node, hc, hl, hv⟩
    rw [Exists_live m fuel now k node hc hl, if_neg hv]
  · exact Exists_absent m fuel now k
  · intro node hc hl hv
    rw [Exists_live m fuel now k node hc hl, if_pos hv]
  · intro node hc hl hv
    rw [Exists_live m fuel now k node hc hl, hv]
    rfl

theorem C3_exists_iff_visible_witness :
    (emptyBackend.Set 0 "a" (some []) 100).1.Exists (0 + 2) 50 "a" =
      some ((emptyBackend.Set 0 "a" (some []) 100).1, true) :=
  (C3_exists_iff_visible (emptyBackend.Set 0 "a" (some []) 100).1 50 "a" 0).2.2.2
    { Value := some [], ExpiredAt := 100 } (by decide) (by decide) rfl

/-- Claim C4 fails as stated: after `Set("a", nil, 100)` at reading 0 the key `"a"`
holds a live entry at reading 50, and `Expire("a", 10)` at reading 50 returns
false. -/
theorem C4_counterexample :
    (emptyBackend.Set 0 "a" none 100).1.client "a" = some { Value := none, ExpiredAt := 100 } ∧
      (50 : Time) ≤ 100 ∧
      ((emptyBackend.Set 0 "a" none 100).1.Expire 1 50 "a" 10).map Prod.snd = some false := by
  decide

/-- Claim C4, amended: for a key `k` that holds a live entry whose value `v` is not
nil, and a duration `newTtl > 0`, `Expire(k, newTtl)` at reading `t` returns true,
leaves the stored value `v` (a `Get(k)` returns it) and sets the deadline to
`t + newTtl`, so that `TTL(k)` read at `t'` with `t ≤ t' ≤ t + newTtl` is
`newTtl - (t' - t)`; for a key with no entry `Expire` returns false and leaves the
table unchanged. -/
theorem C4_expire_visible (m : memoryBackend) (t : Time) (k : String) (v : List UInt8)
    (deadline : Time) (newTtl : Duration) (fuel : Nat)
    (hk : m.client k = some { Value := some v, ExpiredAt := deadline }) (hlive : t ≤ deadline)
    (hpos : 0 < newTtl) (hmax : newTtl ≤ maxDuration) :
    (∃ m', m.Expire (fuel + 1) t k newTtl = some (m', true) ∧
        m'.client k = some { Value := some v, ExpiredAt := t + newTtl } ∧
        (∀ t', t ≤ t' → t' ≤ t + newTtl →
          m'.Get (fuel + 1) t' k = some (m', some v, none) ∧
          m'.TTL (fuel + 1) t' k = some (m', newTtl - (t' - t)))) ∧
      (∀ (m0 : memoryBackend) (k0 : String), m0.client k0 = none →
        m0.Expire (fuel + 1) t k0 newTtl = some (m0, false)) := by
  refine ⟨?_, fun m0 k0 h0 => Expire_absent m0 fuel t k0 newTtl h0⟩
  have hexp := Expire_visible m fuel t k newTtl _ hk hlive (by simp)
  have hc : (m.store k { Value := some v, ExpiredAt := Time.Add t newTtl }).client k =
      some { Value := some v, ExpiredAt := t + newTtl } := by
    rw [store_same]
    rfl
  refine ⟨_, hexp, hc, ?_⟩
  intro t' h1 h2
  refine ⟨Get_live _ fuel t' k _ hc h2, ?_⟩
  rw [TTL_live _ fuel t' k _ hc h2]
  have hsub : Until (t + newTtl) t' = newTtl - (t' - t) := by
    unfold Until
    rw [Sub_exact]
    · ring
    · unfold minDuration
      linarith
    · linarith
  simp only [hsub]

theorem C4_expire_visible_witness :
    (∃ m', (emptyBackend.Set 0 "a" (some [49]) 100).1.Expire (0 + 1) 50 "a" 30 = some (m', true) ∧
        m'.client "a" = some { Value := some [49], ExpiredAt := 50 + 30 } ∧
        (∀ t', 50 ≤ t' → t' ≤ 50 + 30 →
          m'.Get (0 + 1) t' "a" = some (m', some [49], none) ∧
          m'.TTL (0 + 1) t' "a" = some (m', 30 - (t' - 50)))) ∧
      (∀ (m0 : memoryBackend) (k0 : String), m0.client k0 = none →
        m0.Expire (0 + 1) 50 k0 30 = some (m0, false)) :=
  C4_expire_visible (emptyBackend.Set 0 "a" (some [49]) 100).1 50 "a" [49] 100 30 0
    (by decide) (by decide) (by decide) (by decide)

/-- Claim C5, evaluated on the table left by `Set("a", "1", 100)` at reading 0 with
the clock at 150: under no bound on the call depth does the first `Delete("a")`
return, because `Delete` calls `Exists`, `Exists` calls `Get`, and `Get` calls
`Delete` again on the entry that is still stored. -/
theorem C5_delete_of_expired_never_returns (fuel : Nat) :
    (emptyBackend.Set 0 "a" (some [49]) 100).1.Delete fuel 150 "a" = none := by
  have hc : (emptyBackend.Set 0 "a" (some [49]) 100).1.client "a" =
      some { Value := some [49], ExpiredAt := 100 } := by
    simp only [memoryBackend.Set, Time.Add]
    exact store_same _ "a" _
  exact (no_return_of_expired _ 150 "a" _ hc (by decide) fuel).2.1

/-- Where no deadline has passed `Delete` is idempotent: on a key without entry it
returns false and changes nothing, and on a key whose entry has not passed its
deadline two calls in a row return, the first leaving no entry and the second
returning false and changing nothing. -/
theorem Delete_twice_of_not_expired (m : memoryBackend) (now now2 : Time) (k : String)
    (fuel : Nat) (h : ¬ m.expired now k) :
    (m.client k = none → m.Delete (fuel + 3) now k = some (m, false)) ∧
      ∃ b, m.Delete (fuel + 3) now k = some (m.remove k, b) ∧
        (m.remove k).client k = none ∧
        (m.remove k).Delete (fuel + 3) now2 k = some (m.remove k, false) := by
  obtain ⟨b, hd, _⟩ := Delete_of_not_expired m fuel now k h
  exact ⟨Delete_absent m fuel now k, b, hd, remove_same m k,
    Delete_absent (m.remove k) fuel now2 k (remove_same m k)⟩

/-- Claim C6 fails as stated: after `Set("a", nil, 100)` at reading 0 the key `"a"`
holds a live entry at reading 50, and `DeleteMany(["a"])` at reading 50 returns
false. -/
theorem C6_counterexample :
    (emptyBackend.Set 0 "a" none 100).1.client "a" = some { Value := none, ExpiredAt := 100 } ∧
      (50 : Time) ≤ 100 ∧
      ((emptyBackend.Set 0 "a" none 100).1.DeleteMany 3 50 ["a"]).map Prod.snd = some false := by
  decide

/-- Claim C6, amended: for a list of keys (any length, duplicates allowed) none of
which holds an entry past its deadline, `DeleteMany(keys)` returns true exactly
when at least one listed key had, before the call, a live entry whose stored
slice is not nil; afterwards none of the listed keys has an entry, and the
entries of the other keys are as before. -/
theorem C6_deleteMany_iff_visible (m : memoryBackend) (now : Time) (keys : List String)
    (fuel : Nat)
    (hkeys : ∀ k ∈ keys, ∀ node, m.client k = some node → now ≤ node.ExpiredAt) :
    ∃ m' b, m.DeleteMany (fuel + 3) now keys = some (m', b) ∧
      (b = true ↔ ∃ k ∈ keys, ∃ node,
        m.client k = some node ∧ now ≤ node.ExpiredAt ∧ node.Value ≠ none) ∧
      (∀ k ∈ keys, m'.client k = none) ∧
      (∀ k, k ∉ keys → m'.client k = m.client k) := by
  have hne : ∀ k ∈ keys, ¬ m.expired now k := by
    rintro k hk ⟨node, hc, hx⟩
    exact absurd (hkeys k hk node hc) (not_le.mpr hx)
  obtain ⟨m', b, hloop, hb, hgone, hkeep⟩ :=
    DeleteManyLoop_of_not_expired fuel now keys m false hne
  refine ⟨m', b, hloop, ?_, hgone, hkeep⟩
  rw [hb]
  constructor
  · rintro (hf | h)
    · exact absurd hf (by simp)
    · exact h
  · intro h
    exact Or.inr h

theorem C6_deleteMany_iff_visible_witness :
    ∃ m' b, (emptyBackend.Set 0 "a" (some [49]) 100).1.DeleteMany (0 + 3) 50 ["b", "a", "a"] =
        some (m', b) ∧
      (b = true ↔ ∃ k ∈ ["b", "a", "a"], ∃ node,
        (emptyBackend.Set 0 "a" (some [49]) 100).1.client k = some node ∧
          50 ≤ node.ExpiredAt ∧ node.Value ≠ none) ∧
      (∀ k ∈ ["b", "a", "a"], m'.client k = none) ∧
      (∀ k, k ∉ ["b", "a", "a"] →
        m'.client k = (emptyBackend.Set 0 "a" (some [49]) 100).1.client k) :=
  C6_deleteMany_iff_visible (emptyBackend.Set 0 "a" (some [49]) 100).1 50 ["b", "a", "a"] 0
    (by decide)

/-- Claim C7: let `kv` be a finite map (a list of pairs with distinct keys), `visit`
any order in which `SetMany` may go through it, `ttl > 0`, and `keys` a list whose
elements are keys of `kv` or keys without entry in the table. After
`SetMany(kv, ttl)` at `t`, which returns a nil error, a `GetMany(keys)` at `t'`
with `t ≤ t' < t + ttl` returns `len(keys)` results, the `i`-th being
`kv[keys[i]]` when `keys[i]` is in `kv` and nil otherwise. -/
theorem C7_setMany_then_getMany (m : memoryBackend) (kv visit : List (String × Bytes))
    (keys : List String) (ttl : Duration) (t t' : Time) (fuel : Nat)
    (hkv : (kv.map Prod.fst).Nodup) (hvisit : visit.Perm kv) (httl : 0 < ttl)
    (hkeys : ∀ k ∈ keys, k ∈ kv.map Prod.fst ∨ m.client k = none)
    (h1 : t ≤ t') (h2 : t' < t + ttl) :
    (m.SetMany t visit ttl).2 = none ∧
      ∃ m' res, (m.SetMany t visit ttl).1.GetMany (fuel + 1) t' keys = some (m', res) ∧
        res.length = keys.length ∧
        (∀ (i : Nat) (hi : i < keys.length) (hr : i < res.length),
          (keys[i] ∈ kv.map Prod.fst → ∃ v, (keys[i], v) ∈ kv ∧ res[i] = v) ∧
          (keys[i] ∉ kv.map Prod.fst → res[i] = none)) ∧
        res = keys.map (index kv) := by
  have hvnd : (visit.map Prod.fst).Nodup := ((hvisit.map Prod.fst).nodup_iff).mpr hkv
  -- the entry of each listed key after `SetMany`
  have hafter : ∀ k ∈ keys,
      ¬ (m.SetMany t visit ttl).1.expired t' k ∧
        (m.SetMany t visit ttl).1.stored k = index kv k := by
    intro k hk
    by_cases hin : k ∈ kv.map Prod.fst
    · obtain ⟨p, hp, hpk⟩ := List.mem_map.mp hin
      obtain ⟨k0, v⟩ := p
      simp only at hpk
      subst hpk
      have hc := SetMany_mem t ttl k0 v visit m hvnd (hvisit.mem_iff.mpr hp)
      refine ⟨?_, ?_⟩
      · rintro ⟨node, hn, hx⟩
        rw [hc] at hn
        simp only [Option.some.injEq] at hn
        rw [← hn] at hx
        simp only [Time.Add] at hx
        linarith
      · simp [memoryBackend.stored, hc, index, lookup_of_mem k0 v kv hkv hp]
    · have hnone : m.client k = none := by
        rcases hkeys k hk with h | h
        · exact absurd h hin
        · exact h
      have hnv : k ∉ visit.map Prod.fst := by
        intro hv
        exact hin ((hvisit.map Prod.fst).mem_iff.mp hv)
      have hc : (m.SetMany t visit ttl).1.client k = none := by
        rw [SetMany_other t ttl k visit m hnv, hnone]
      refine ⟨?_, ?_⟩
      · rintro ⟨node, hn, _⟩
        rw [hc] at hn
        exact absurd hn (by simp)
      · simp [memoryBackend.stored, hc, index, lookup_none_of_not_mem k kv hin]
  have hget := GetMany_of_not_expired (m.SetMany t visit ttl).1 fuel t' keys
    (fun k hk => (hafter k hk).1)
  have hmap : keys.map (m.SetMany t visit ttl).1.stored = keys.map (index kv) :=
    List.map_congr_left (fun k hk => (hafter k hk).2)
  rw [hmap] at hget
  refine ⟨SetMany_error t ttl visit m, _, _, hget, by simp, ?_, rfl⟩
  intro i hi hr
  have hri : (keys.map (index kv))[i] = index kv keys[i] := by simp
  rw [hri]
  constructor
  · intro hin
    obtain ⟨p, hp, hpk⟩ := List.mem_map.mp hin
    obtain ⟨k0, v⟩ := p
    simp only at hpk
    refine ⟨v, by rw [← hpk]; exact hp, ?_⟩
    rw [← hpk]
    simp [index, lookup_of_mem k0 v kv hkv hp]
  · intro hnin
    simp [index, lookup_none_of_not_mem _ kv hnin]

theorem C7_setMany_then_getMany_witness :
    (emptyBackend.SetMany 10 [("b", some [2]), ("a", some [1])] 100).2 = none ∧
      ∃ m' res, (emptyBackend.SetMany 10 [("b", some [2]), ("a", some [1])] 100).1.GetMany
          (0 + 1) 50 ["b", "x", "a", "a"] = some (m', res) ∧
        res.length = ["b", "x", "a", "a"].length ∧
        (∀ (i : Nat) (hi : i < ["b", "x", "a", "a"].length) (hr : i < res.length),
          (["b", "x", "a", "a"][i] ∈ [("a", some [1]), ("b", some [2])].map Prod.fst →
            ∃ v, (["b", "x", "a", "a"][i], v) ∈ [("a", some [1]), ("b", some [2])] ∧
              res[i] = v) ∧
          (["b", "x", "a", "a"][i] ∉ [("a", some [1]), ("b", some [2])].map Prod.fst →
            res[i] = none)) ∧
        res = ["b", "x", "a", "a"].map (index [("a", some [1]), ("b", some [2])]) :=
  C7_setMany_then_getMany emptyBackend [("a", some [1]), ("b", some [2])]
    [("b", some [2]), ("a", some [1])] ["b", "x", "a", "a"] 100 10 50 0
    (by decide) (by decide) (by decide) (by decide) (by decide) (by decide)

/-- The deadline instant itself is not past the deadline: after `Set(k, v, 0)` at the
reading `t`, a `Get(k)` at the same reading `t` returns `v` with a nil error,
because `ExpiredAt.Before(now)` is a strict comparison. -/
theorem Get_at_deadline_after_Set (m : memoryBackend) (k : String) (v : Bytes) (t : Time)
    (fuel : Nat) :
    (m.Set t k v 0).1.Get (fuel + 1) t k = some ((m.Set t k v 0).1, v, none) := by
  have hc : (m.Set t k v 0).1.client k = some { Value := v, ExpiredAt := t + 0 } := by
    simp only [memoryBackend.Set, Time.Add]
    exact store_same m k _
  have hl : t ≤ ({ Value := v, ExpiredAt := t + 0 } : memoryBackendNode).ExpiredAt := by
    simp
  exact Get_live _ fuel t k _ hc hl

/-- Claim C8, evaluated at `Set("a", "1", -1)` at reading 5 followed by `Get("a")` at
the same reading 5, and at `Set("a", "1", 0)` at reading 5 followed by `Get("a")`
at reading 6: the stored deadline is before the reading of the `Get`, and under
no bound on the call depth does `Get("a")` return, because `Get` calls `Delete`,
`Delete` calls `Exists` and `Exists` calls `Get` on the entry that is still
stored. -/
theorem C8_get_after_nonpositive_ttl_never_returns (fuel : Nat) :
    (emptyBackend.Set 5 "a" (some [49]) (-1)).1.client "a" =
        some { Value := some [49], ExpiredAt := 4 } ∧
      (emptyBackend.Set 5 "a" (some [49]) (-1)).1.Get fuel 5 "a" = none ∧
      (emptyBackend.Set 5 "a" (some [49]) 0).1.client "a" =
        some { Value := some [49], ExpiredAt := 5 } ∧
      (emptyBackend.Set 5 "a" (some [49]) 0).1.Get fuel 6 "a" = none := by
  have hneg : (emptyBackend.Set 5 "a" (some [49]) (-1)).1.client "a" =
      some { Value := some [49], ExpiredAt := 4 } := by
    simp only [memoryBackend.Set, Time.Add]
    exact store_same _ "a" _
  have hzero : (emptyBackend.Set 5 "a" (some [49]) 0).1.client "a" =
      some { Value := some [49], ExpiredAt := 5 } := by
    simp only [memoryBackend.Set, Time.Add]
    exact store_same _ "a" _
  exact ⟨hneg, (no_return_of_expired _ 5 "a" _ hneg (by decide) fuel).1,
    hzero, (no_return_of_expired _ 6 "a" _ hzero (by decide) fuel).1⟩

/-- Claim C9: after any finite sequence of data operations applied to the table
allocated by `Init`, at any clock readings (non-decreasing or not), in which no
`Set` or `SetMany` names `k`, the table holds no entry for `k`: `Exists(k)`
returns false, `Get(k)` returns nil with a nil error and `TTL(k)` returns zero,
each leaving the table as it is. -/
theorem C9_never_set_stays_absent (k : String) (ops : List (Time × Op)) (fuel : Nat)
    (m : memoryBackend) (hops : ∀ p ∈ ops, p.2.sets k = false)
    (hrun : emptyBackend.run fuel ops = some m) :
    m.client k = none ∧
      ∀ (now : Time) (f : Nat),
        m.Exists (f + 2) now k = some (m, false) ∧
        m.Get (f + 1) now k = some (m, none, none) ∧
        m.TTL (f + 1) now k = some (m, 0) := by
  have hk : m.client k = none := run_keeps_absent fuel k ops emptyBackend m hops hrun rfl
  exact ⟨hk, fun now f =>
    ⟨Exists_absent m f now k hk, Get_absent m f now k hk, TTL_absent m f now k hk⟩⟩

theorem C9_never_set_stays_absent_witness :
    (((emptyBackend.Set 0 "b" (some [1]) 10).1.SetMany 3 [("c", some [2])] 10).1.remove
        "a").client "a" = none ∧
      ∀ (now : Time) (f : Nat),
        (((emptyBackend.Set 0 "b" (some [1]) 10).1.SetMany 3 [("c", some [2])] 10).1.remove
            "a").Exists (f + 2) now "a" =
          some ((((emptyBackend.Set 0 "b" (some [1]) 10).1.SetMany 3
            [("c", some [2])] 10).1.remove "a"), false) ∧
        (((emptyBackend.Set 0 "b" (some [1]) 10).1.SetMany 3 [("c", some [2])] 10).1.remove
            "a").Get (f + 1) now "a" =
          some ((((emptyBackend.Set 0 "b" (some [1]) 10).1.SetMany 3
            [("c", some [2])] 10).1.remove "a"), none, none) ∧
        (((emptyBackend.Set 0 "b" (some [1]) 10).1.SetMany 3 [("c", some [2])] 10).1.remove
            "a").TTL (f + 1) now "a" =
          some ((((emptyBackend.Set 0 "b" (some [1]) 10).1.SetMany 3
            [("c", some [2])] 10).1.remove "a"), 0) :=
  C9_never_set_stays_absent "a"
    [(0, Op.Set "b" (some [1]) 10), (1, Op.Get "b"), (2, Op.Expire "a" 5),
      (3, Op.SetMany [("c", some [2])] 10), (4, Op.Delete "a"), (5, Op.TTL "a")]
    3 _ (by decide) rfl

/-- Claim C10: for keys `k ≠ k'`, each of `Set(k, ..)`, `Delete(k)`, `Expire(k, ..)`,
`Get(k)`, `Exists(k)` and `TTL(k)` leaves the entry of `k'` (presence, value and
deadline) as it was; when `k` has no entry or a live entry all of them return,
and `Get`, `Exists` and `TTL` leave the whole table unchanged. -/
theorem C10_single_key_frame (m : memoryBackend) (now : Time) (k k' : String)
    (hne : k ≠ k') :
    (∀ v ttl, (m.Set now k v ttl).1.client k' = m.client k') ∧
      (∀ fuel m' b, m.Delete fuel now k = some (m', b) → m'.client k' = m.client k') ∧
      (∀ fuel ttl m' b, m.Expire fuel now k ttl = some (m', b) → m'.client k' = m.client k') ∧
      (∀ fuel m' r, m.Get fuel now k = some (m', r) → m'.client k' = m.client k') ∧
      (∀ fuel m' b, m.Exists fuel now k = some (m', b) → m'.client k' = m.client k') ∧
      (∀ fuel m' d, m.TTL fuel now k = some (m', d) → m'.client k' = m.client k') ∧
      ((m.client k = none ∨ ∃ node, m.client k = some node ∧ now ≤ node.ExpiredAt) →
        ∀ fuel ttl,
          (∃ r, m.Get (fuel + 1) now k = some (m, r)) ∧
          (∃ b, m.Exists (fuel + 2) now k = some (m, b)) ∧
          (∃ d, m.TTL (fuel + 1) now k = some (m, d)) ∧
          (∃ m' b, m.Delete (fuel + 3) now k = some (m', b)) ∧
          (∃ m' b, m.Expire (fuel + 1) now k ttl = some (m', b))) := by
  have hk : k' ≠ k := fun h => hne h.symm
  refine ⟨?_, ?_, ?_, ?_, ?_, ?_, ?_⟩
  · intro v ttl
    simp only [memoryBackend.Set]
    exact store_other m k k' _ hk
  · intro fuel m' b h
    rw [(Delete_returns m m' fuel now k b h).1]
    exact remove_other m k k' hk
  · intro fuel ttl m' b h
    exact Expire_returns m m' fuel now k ttl b h k' hk
  · intro fuel m' r h
    rw [(Get_returns m m' fuel now k r.1 r.2 h).1]
  · intro fuel m' b h
    rw [(Exists_returns m m' fuel now k b h).1]
  · intro fuel m' d h
    rw [TTL_returns m m' fuel now k d h]
  · intro hcase fuel ttl
    rcases hcase with hc | ⟨node, hc, hl⟩
    · exact ⟨⟨_, Get_absent m fuel now k hc⟩, ⟨_, Exists_absent m fuel now k hc⟩,
        ⟨_, TTL_absent m fuel now k hc⟩, ⟨_, _, Delete_absent m fuel now k hc⟩,
        ⟨_, _, Expire_absent m fuel now k ttl hc⟩⟩
    · refine ⟨⟨_, Get_live m fuel now k node hc hl⟩, ⟨_, Exists_live m fuel now k node hc hl⟩,
        ⟨_, TTL_live m fuel now k node hc hl⟩, ⟨_, _, Delete_live m fuel now k node hc hl⟩, ?_⟩
      by_cases hv : node.Value = none
      · exact ⟨_, _, Expire_live_nil m fuel now k ttl node hc hl hv⟩
      · exact ⟨_, _, Expire_visible m fuel now k ttl node hc hl hv⟩

theorem C10_single_key_frame_witness :
    "b" ≠ "a" ∧
      (∀ v ttl, ((emptyBackend.Set 0 "a" (some [1]) 10).1.Set 5 "b" v ttl).1.client "a" =
        (emptyBackend.Set 0 "a" (some [1]) 10).1.client "a") ∧
      (∀ fuel m' b, (emptyBackend.Set 0 "a" (some [1]) 10).1.Delete fuel 5 "b" = some (m', b) →
        m'.client "a" = (emptyBackend.Set 0 "a" (some [1]) 10).1.client "a") :=
  ⟨by decide,
    (C10_single_key_frame (emptyBackend.Set 0 "a" (some [1]) 10).1 5 "b" "a" (by decide)).1,
    (C10_single_key_frame (emptyBackend.Set 0 "a" (some [1]) 10).1 5 "b" "a" (by decide)).2.1⟩

end memory
